import Mathlib

/-!
Verification of the maze-game pathfinding and path-following core
(`game/gamestates/gameplay.py`).

The tile universe is modelled as `Fin n`; the Grid Map collaborator
(`get_neighbors`, `is_tile_passable`, `tile`, `world`) is external to the
module under verification and is passed in as function parameters, matching
the spec's description of the Grid Map as a query interface.
-/

namespace MazeGame

/-- Adjacency relation induced by the Grid Map's `get_neighbors` query:
`Adj nbrs a b` holds when `b` is among the neighbours of `a`. -/
def Adj {n : Nat} (nbrs : Fin n → List (Fin n)) (a b : Fin n) : Prop :=
  b ∈ nbrs a

instance {n : Nat} (nbrs : Fin n → List (Fin n)) (a b : Fin n) :
    Decidable (Adj nbrs a b) :=
  inferInstanceAs (Decidable (b ∈ nbrs a))

/-- `p` is a walk in the adjacency graph from `A` to `B`:
nonempty, starts at `A`, ends at `B`, consecutive tiles adjacent. -/
def IsPath {n : Nat} (nbrs : Fin n → List (Fin n)) (A B : Fin n)
    (p : List (Fin n)) : Prop :=
  p.head? = some A ∧ p.getLast? = some B ∧ List.Chain' (Adj nbrs) p

instance {n : Nat} (nbrs : Fin n → List (Fin n)) (A B : Fin n)
    (p : List (Fin n)) : Decidable (IsPath nbrs A B p) :=
  decidable_of_iff
    (p.head? = some A ∧ p.getLast? = some B ∧ List.Chain' (Adj nbrs) p)
    Iff.rfl

/-- `B` is reachable from `A` in the adjacency graph. -/
def Reachable {n : Nat} (nbrs : Fin n → List (Fin n)) (A B : Fin n) : Prop :=
  ∃ p, IsPath nbrs A B p

/-- Largest number of neighbours any tile has; used only for the
termination measure of the search loop. -/
def maxDeg {n : Nat} (nbrs : Fin n → List (Fin n)) : Nat :=
  Finset.univ.sup fun t => (nbrs t).length

/-- The `while queue:` loop of `GamePlay.bf_pathfinding` (gameplay.py
lines 22-37).  The queue holds partial paths; the oldest is dequeued, its
last tile compared against the target (returning the full path on a hit),
and otherwise — if that tile was not yet visited — it is marked visited and
every neighbour extension is appended at the back of the queue.
The `getLast? = none` arm is unreachable on real runs, since every enqueued
path is nonempty (the Python `path[-1]` would raise there). -/
def bfAux {n : Nat} (nbrs : Fin n → List (Fin n)) (target : Fin n)
    (queue : List (List (Fin n))) (visited : Finset (Fin n)) :
    Option (List (Fin n)) :=
  match queue with
  | [] => none
  | path :: rest =>
    match path.getLast? with
    | none => none
    | some current =>
      if current = target then
        some path
      else if _hv : current ∈ visited then
        bfAux nbrs target rest visited
      else
        bfAux nbrs target
          (rest ++ (nbrs current).map fun neighbour => path ++ [neighbour])
          (insert current visited)
termination_by (n - visited.card) * (maxDeg nbrs + 1) + queue.length
decreasing_by
  · simp only [List.length_cons]
    omega
  · simp only [List.length_append, List.length_map, List.length_cons]
    have hcard : visited.card < n := by
      have h1 : visited.card ≤ n := by
        simpa using Finset.card_le_univ visited
      rcases Nat.lt_or_ge visited.card n with h | h
      · exact h
      · exfalso
        have h2 : visited = Finset.univ := by
          apply Finset.eq_univ_of_card
          rw [Fintype.card_fin]
          exact le_antisymm h1 h
        exact _hv (h2 ▸ Finset.mem_univ current)
    have hdeg : (nbrs current).length ≤ maxDeg nbrs := by
      have h := @Finset.le_sup Nat (Fin n) _ _ Finset.univ
        (fun t => (nbrs t).length) current (Finset.mem_univ current)
      simpa [maxDeg] using h
    have hins : (insert current visited).card = visited.card + 1 :=
      Finset.card_insert_of_not_mem _hv
    rw [hins]
    have hsub : n - visited.card = (n - (visited.card + 1)) + 1 := by omega
    rw [hsub]
    have hmul : ((n - (visited.card + 1)) + 1) * (maxDeg nbrs + 1)
        = (n - (visited.card + 1)) * (maxDeg nbrs + 1) + (maxDeg nbrs + 1) := by
      ring
    omega

/-- `GamePlay.bf_pathfinding` (gameplay.py lines 18-37): BFS over partial
paths starting from the single-tile path `[start_tile]` with an empty
visited set. -/
def bf_pathfinding {n : Nat} (nbrs : Fin n → List (Fin n))
    (start_tile target_tile : Fin n) : Option (List (Fin n)) :=
  bfAux nbrs target_tile [[start_tile]] ∅

/-- Every path in the queue is nonempty, starts at `A`, and is a valid
adjacency walk. -/
def QueueOK {n : Nat} (nbrs : Fin n → List (Fin n)) (A : Fin n)
    (queue : List (List (Fin n))) : Prop :=
  ∀ r ∈ queue, r.head? = some A ∧ List.Chain' (Adj nbrs) r

/-- Completeness invariant of the search loop, relative to a fixed
comparison walk `q` from the start tile to `target`: some queued partial
path `p` extends by a tail `s` to a walk ending at `target`, no longer than
`q`, where the tiles of `s` are unvisited, and (unless `s` is empty) the
junction tile at the end of `p` is unvisited as well. -/
def KInv {n : Nat} (nbrs : Fin n → List (Fin n)) (target : Fin n)
    (q : List (Fin n)) (queue : List (List (Fin n)))
    (visited : Finset (Fin n)) : Prop :=
  ∃ p ∈ queue, ∃ s : List (Fin n),
    List.Chain' (Adj nbrs) (p ++ s) ∧
    (p ++ s).getLast? = some target ∧
    p.length + s.length ≤ q.length ∧
    (∀ x ∈ s, x ∉ visited) ∧
    (s ≠ [] → ∀ c, p.getLast? = some c → c ∉ visited)

/-- The shared game-state fields touched by the pathfinding core:
`data.path` (Python: `None`, or a list of tiles, possibly empty) and the
player's world position.  World positions are kept abstract (`Pos`), since
the code only ever copies coordinates produced by the Grid Map's `world`
query without computing on them. -/
structure GameData (n : Nat) (Pos : Type) where
  path : Option (List (Fin n))
  player : Pos

/-- Python truthiness of `self.data.path`: `None` and the empty list are
falsy, a nonempty list is truthy. -/
def pathTruthy {α : Type} : Option (List α) → Bool
  | none => false
  | some l => !l.isEmpty

/-- A pointer event as consumed by `GamePlay.click_handler`: the two
guard conditions (`event.button is MOUSE_BTN1`,
`event.action is BUTTON_PRESSED`) and the event position. -/
structure ClickEvent (Pos : Type) where
  button_is_left : Bool
  action_is_pressed : Bool
  pos : Pos

/-- `GamePlay.click_handler` (gameplay.py lines 74-98).  On a left-button
press, the event position is passed directly to the Grid Map's `tile`
query (`tile` models `game_map.tile`, modelled from the spec since the
Grid Map is outside this module); an impassable target is rejected; when
no path is active, the result of `bf_pathfinding` from the player's tile
is assigned to `data.path` as-is (including a `None` result). -/
def click_handler {n : Nat} {Pos : Type} (nbrs : Fin n → List (Fin n))
    (is_tile_passable : Fin n → Bool) (tile : Pos → Fin n)
    (event : ClickEvent Pos) (data : GameData n Pos) : GameData n Pos :=
  if event.button_is_left && event.action_is_pressed then
    let target_tile := tile event.pos
    if !(is_tile_passable target_tile) then data
    else if !(pathTruthy data.path) then
      { data with path := bf_pathfinding nbrs (tile data.player) target_tile }
    else data
  else data

/-- `GamePlay.update` (gameplay.py lines 112-127).  When `data.path` is
truthy, its head tile is re-checked for passability: if impassable the
whole path is discarded (`data.path = None`); otherwise the player's
position is overwritten with the tile's world coordinate (`world` models
`game_map.world`, modelled from the spec) and the head is popped. -/
def update {n : Nat} {Pos : Type} (is_tile_passable : Fin n → Bool)
    (world : Fin n → Pos) (data : GameData n Pos) : GameData n Pos :=
  match data.path with
  | some (next_tile :: rest) =>
    if is_tile_passable next_tile then
      { path := some rest, player := world next_tile }
    else
      { data with path := none }
  | _ => data

/-- The camera view rectangle used by `GamePlay.to_world`. -/
structure CameraView where
  min_x : ℚ
  max_x : ℚ
  min_y : ℚ
  max_y : ℚ

/-- `GamePlay.to_world` (gameplay.py lines 176-188): maps a screen
position into world space using the camera view rectangle and the game
resolution. -/
def to_world (view : CameraView) (res_x res_y : ℚ) (pos : ℚ × ℚ) : ℚ × ℚ :=
  (view.min_x + (view.max_x - view.min_x) / res_x * pos.1,
   view.min_y + (view.max_y - view.min_y) / res_y * pos.2)

/-- The target-tile computation actually performed by `click_handler`
(gameplay.py lines 76-77): the raw event coordinates are passed to the
Grid Map's `tile` query with no camera transform. -/
def click_target_tile {α : Type} (tile : ℚ × ℚ → α)
    (event_x event_y : ℚ) : α :=
  tile (event_x, event_y)

/-- Modelled from the spec: the Input-to-Target Resolver "Converts
`screen_position` to world space, then to a target Tile via the Grid
Map" — i.e. the event position goes through the camera transform
(`to_world`) before the `tile` query. -/
def click_target_tile_spec {α : Type} (view : CameraView) (res_x res_y : ℚ)
    (tile : ℚ × ℚ → α) (event_x event_y : ℚ) : α :=
  tile (to_world view res_x res_y (event_x, event_y))

/-- The same search loop as `bfAux`, with an explicit iteration budget:
`none` means the budget ran out, `some r` that the loop finished with
result `r`.  Used to state that the loop terminates on bounded graphs. -/
def bfFuel {n : Nat} (nbrs : Fin n → List (Fin n)) (target : Fin n) :
    Nat → List (List (Fin n)) → Finset (Fin n) →
      Option (Option (List (Fin n)))
  | 0, _, _ => none
  | fuel + 1, queue, visited =>
    match queue with
    | [] => some none
    | path :: rest =>
      match path.getLast? with
      | none => some none
      | some current =>
        if current = target then some (some path)
        else if current ∈ visited then
          bfFuel nbrs target fuel rest visited
        else
          bfFuel nbrs target fuel
            (rest ++ (nbrs current).map fun neighbour => path ++ [neighbour])
            (insert current visited)

/-- Example map on two tiles: tile 0 has tile 1 as its only neighbour,
tile 1 is a dead end. -/
def exNbrs : Fin 2 → List (Fin 2) :=
  fun t => if t = 0 then [1] else []

/-- Example map on two tiles with no edges at all. -/
def exNbrsNone : Fin 2 → List (Fin 2) :=
  fun _ => []

/-- Example passability oracle: everything passable. -/
def exPassable : Fin 2 → Bool :=
  fun _ => true

/-- Example passability oracle: nothing passable. -/
def exImpassable : Fin 2 → Bool :=
  fun _ => false

theorem bfAux_nil {n : Nat} (nbrs : Fin n → List (Fin n)) (target : Fin n)
    (visited : Finset (Fin n)) : bfAux nbrs target [] visited = none := by
  rw [bfAux]

theorem bfAux_cons_target {n : Nat} (nbrs : Fin n → List (Fin n))
    (target current : Fin n) (path : List (Fin n))
    (rest : List (List (Fin n))) (visited : Finset (Fin n))
    (hcur : path.getLast? = some current) (hct : current = target) :
    bfAux nbrs target (path :: rest) visited = some path := by
  rw [bfAux, hcur]
  simp [hct]

theorem bfAux_cons_visited {n : Nat} (nbrs : Fin n → List (Fin n))
    (target current : Fin n) (path : List (Fin n))
    (rest : List (List (Fin n))) (visited : Finset (Fin n))
    (hcur : path.getLast? = some current) (hct : current ≠ target)
    (hv : current ∈ visited) :
    bfAux nbrs target (path :: rest) visited = bfAux nbrs target rest visited := by
  rw [bfAux, hcur]
  simp [hct, hv]

theorem bfAux_cons_new {n : Nat} (nbrs : Fin n → List (Fin n))
    (target current : Fin n) (path : List (Fin n))
    (rest : List (List (Fin n))) (visited : Finset (Fin n))
    (hcur : path.getLast? = some current) (hct : current ≠ target)
    (hv : current ∉ visited) :
    bfAux nbrs target (path :: rest) visited =
      bfAux nbrs target
        (rest ++ (nbrs current).map fun neighbour => path ++ [neighbour])
        (insert current visited) := by
  rw [bfAux, hcur]
  simp [hct, hv]

theorem bfAux_cons_nolast {n : Nat} (nbrs : Fin n → List (Fin n))
    (target : Fin n) (path : List (Fin n)) (rest : List (List (Fin n)))
    (visited : Finset (Fin n)) (hcur : path.getLast? = none) :
    bfAux nbrs target (path :: rest) visited = none := by
  rw [bfAux, hcur]

theorem bfAux_sound {n : Nat} (nbrs : Fin n → List (Fin n)) (A target : Fin n) :
    ∀ (N : Nat) (queue : List (List (Fin n))) (visited : Finset (Fin n)),
      (n - visited.card) * (maxDeg nbrs + 1) + queue.length ≤ N →
      QueueOK nbrs A queue →
      ∀ res, bfAux nbrs target queue visited = some res →
        res.head? = some A ∧ res.getLast? = some target ∧
          List.Chain' (Adj nbrs) res := by
  intro N
  induction N with
  | zero =>
    intro queue visited hm hq res hres
    cases queue with
    | nil =>
      rw [bfAux_nil] at hres
      exact absurd hres (by simp)
    | cons path rest =>
      simp only [List.length_cons] at hm
      omega
  | succ N ih =>
    intro queue visited hm hq res hres
    cases queue with
    | nil =>
      rw [bfAux_nil] at hres
      exact absurd hres (by simp)
    | cons path rest =>
      obtain ⟨hhead, hchain⟩ := hq path (List.mem_cons_self path rest)
      have hpne : path ≠ [] := by
        intro h
        rw [h] at hhead
        exact absurd hhead (by simp)
      obtain ⟨current, hcur⟩ := Option.isSome_iff_exists.mp
        (List.getLast?_isSome.mpr hpne)
      by_cases hct : current = target
      · rw [bfAux_cons_target nbrs target current path rest visited hcur hct] at hres
        obtain rfl := Option.some.inj hres
        exact ⟨hhead, hct ▸ hcur, hchain⟩
      · by_cases hv : current ∈ visited
        · rw [bfAux_cons_visited nbrs target current path rest visited hcur hct hv] at hres
          refine ih rest visited ?_ (fun r hr => hq r (List.mem_cons_of_mem _ hr)) res hres
          simp only [List.length_cons] at hm
          omega
        · rw [bfAux_cons_new nbrs target current path rest visited hcur hct hv] at hres
          refine ih _ _ ?_ ?_ res hres
          · -- the measure strictly decreases when a new tile is visited
            simp only [List.length_append, List.length_map, List.length_cons] at hm ⊢
            have hcard : visited.card < n := by
              have h1 : visited.card ≤ n := by
                simpa using Finset.card_le_univ visited
              rcases Nat.lt_or_ge visited.card n with h | h
              · exact h
              · exfalso
                have h2 : visited = Finset.univ := by
                  apply Finset.eq_univ_of_card
                  rw [Fintype.card_fin]
                  exact le_antisymm h1 h
                exact hv (h2 ▸ Finset.mem_univ current)
            have hdeg : (nbrs current).length ≤ maxDeg nbrs := by
              have h := @Finset.le_sup Nat (Fin n) _ _ Finset.univ
                (fun t => (nbrs t).length) current (Finset.mem_univ current)
              simpa [maxDeg] using h
            have hins : (insert current visited).card = visited.card + 1 :=
              Finset.card_insert_of_not_mem hv
            rw [hins]
            have hsub : n - visited.card = (n - (visited.card + 1)) + 1 := by omega
            rw [hsub] at hm
            have hmul : ((n - (visited.card + 1)) + 1) * (maxDeg nbrs + 1)
                = (n - (visited.card + 1)) * (maxDeg nbrs + 1) + (maxDeg nbrs + 1) := by
              ring
            omega
          · intro r hr
            rcases List.mem_append.mp hr with hr | hr
            · exact hq r (List.mem_cons_of_mem _ hr)
            · obtain ⟨nb, hnb, rfl⟩ := List.mem_map.mp hr
              constructor
              · rw [List.head?_append, hhead]
                rfl
              · refine List.chain'_append.mpr ⟨hchain, List.chain'_singleton nb, ?_⟩
                intro x hx y hy
                simp only [hcur, Option.mem_def, Option.some.injEq] at hx
                simp only [List.head?_cons, Option.mem_def, Option.some.injEq] at hy
                subst hx
                subst hy
                exact hnb

/-- Any result of `bf_pathfinding` is a valid adjacency walk from the start
tile to the target tile. -/
theorem bf_pathfinding_sound {n : Nat} (nbrs : Fin n → List (Fin n))
    (A B : Fin n) (p : List (Fin n)) (h : bf_pathfinding nbrs A B = some p) :
    IsPath nbrs A B p := by
  have hq : QueueOK nbrs A [[A]] := by
    intro r hr
    simp only [List.mem_singleton] at hr
    subst hr
    exact ⟨rfl, List.chain'_singleton A⟩
  exact bfAux_sound nbrs A B
    ((n - (∅ : Finset (Fin n)).card) * (maxDeg nbrs + 1) + 1) [[A]] ∅
    (le_refl _) hq p h

theorem exists_last_occurrence {α : Type*} (a : α) :
    ∀ l : List α, a ∈ l → ∃ pre suf, l = pre ++ a :: suf ∧ a ∉ suf := by
  intro l
  induction l with
  | nil => simp
  | cons b t ih =>
    intro h
    by_cases hat : a ∈ t
    · obtain ⟨pre, suf, heq, hns⟩ := ih hat
      exact ⟨b :: pre, suf, by rw [heq]; rfl, hns⟩
    · have hab : a = b := by
        rcases List.mem_cons.mp h with h | h
        · exact h
        · exact absurd h hat
      exact ⟨[], t, by rw [hab]; rfl, hat⟩

theorem suffix_of_split_eq {α : Type*} (a : α) :
    ∀ (pre suf u v : List α),
      pre ++ a :: suf = u ++ a :: v → a ∉ suf → suf <:+ v := by
  intro pre
  induction pre with
  | nil =>
    intro suf u v h hna
    cases u with
    | nil =>
      simp only [List.nil_append, List.cons.injEq] at h
      rw [h.2]
    | cons x u2 =>
      simp only [List.nil_append, List.cons_append, List.cons.injEq] at h
      exfalso
      apply hna
      rw [h.2]
      simp
  | cons x pre2 ih =>
    intro suf u v h hna
    cases u with
    | nil =>
      simp only [List.cons_append, List.nil_append, List.cons.injEq] at h
      rw [← h.2]
      exact (List.suffix_cons a suf).trans (List.suffix_append pre2 (a :: suf))
    | cons y u2 =>
      simp only [List.cons_append, List.cons.injEq] at h
      exact ih suf u2 v h.2 hna

theorem mem_chain'_head_or_rel {α : Type*} {R : α → α → Prop} :
    ∀ l : List α, List.Chain' R l →
      ∀ x ∈ l, l.head? = some x ∨ ∃ y, R y x := by
  intro l
  induction l with
  | nil => simp
  | cons a t ih =>
    intro hc x hx
    rcases List.mem_cons.mp hx with rfl | hx
    · left
      rfl
    · cases t with
      | nil => simp at hx
      | cons b t2 =>
        obtain ⟨hab, hc2⟩ := List.chain'_cons.mp hc
        rcases ih hc2 x hx with hh | hy
        · right
          simp only [List.head?_cons, Option.some.injEq] at hh
          exact ⟨a, hh ▸ hab⟩
        · right
          exact hy

theorem sorted_map_const {α : Type*} (c : Nat) :
    ∀ (l : List α) (f : α → Nat), (∀ a ∈ l, f a = c) →
      List.Sorted (· ≤ ·) (l.map f) := by
  intro l
  induction l with
  | nil => simp
  | cons a t ih =>
    intro f h
    rw [List.map_cons]
    refine List.sorted_cons.mpr ⟨?_, ih f fun x hx => h x (List.mem_cons_of_mem _ hx)⟩
    intro b hb
    obtain ⟨x, hx, rfl⟩ := List.mem_map.mp hb
    rw [h a (List.mem_cons_self a t), h x (List.mem_cons_of_mem _ hx)]

theorem bfAux_complete {n : Nat} (nbrs : Fin n → List (Fin n))
    (A target : Fin n) (q : List (Fin n)) :
    ∀ (N : Nat) (queue : List (List (Fin n))) (visited : Finset (Fin n)),
      (n - visited.card) * (maxDeg nbrs + 1) + queue.length ≤ N →
      QueueOK nbrs A queue →
      List.Sorted (· ≤ ·) (queue.map List.length) →
      (∀ r ∈ queue, ∀ r2 ∈ queue, r.length ≤ r2.length + 1) →
      KInv nbrs target q queue visited →
      ∃ res, bfAux nbrs target queue visited = some res ∧
        res.length ≤ q.length := by
  intro N
  induction N with
  | zero =>
    intro queue visited hm hq hsort hpair hk
    cases queue with
    | nil =>
      obtain ⟨p, hp, _⟩ := hk
      simp at hp
    | cons path rest =>
      simp only [List.length_cons] at hm
      omega
  | succ N ih =>
    intro queue visited hm hq hsort hpair hk
    cases queue with
    | nil =>
      obtain ⟨p, hp, _⟩ := hk
      simp at hp
    | cons path rest =>
      obtain ⟨hhead, hchain⟩ := hq path (List.mem_cons_self path rest)
      have hpne : path ≠ [] := by
        intro h
        rw [h] at hhead
        exact absurd hhead (by simp)
      obtain ⟨current, hcur⟩ := Option.isSome_iff_exists.mp
        (List.getLast?_isSome.mpr hpne)
      have hsort2 := hsort
      rw [List.map_cons] at hsort2
      obtain ⟨hminlen, hsortrest⟩ := List.sorted_cons.mp hsort2
      have hmin : ∀ r ∈ path :: rest, path.length ≤ r.length := by
        intro r hr
        rcases List.mem_cons.mp hr with rfl | hr
        · exact le_refl _
        · exact hminlen _ (List.mem_map_of_mem List.length hr)
      by_cases hct : current = target
      · refine ⟨path, bfAux_cons_target nbrs target current path rest visited hcur hct, ?_⟩
        obtain ⟨p, hp, s, hchain2, hlast2, hlen2, hsvis, hdisj⟩ := hk
        calc path.length ≤ p.length := hmin p hp
          _ ≤ p.length + s.length := Nat.le_add_right _ _
          _ ≤ q.length := hlen2
      · by_cases hv : current ∈ visited
        · rw [bfAux_cons_visited nbrs target current path rest visited hcur hct hv]
          refine ih rest visited ?_
            (fun r hr => hq r (List.mem_cons_of_mem _ hr)) hsortrest ?_ ?_
          · simp only [List.length_cons] at hm
            omega
          · intro r hr r2 hr2
            exact hpair r (List.mem_cons_of_mem _ hr) r2 (List.mem_cons_of_mem _ hr2)
          · obtain ⟨p, hp, s, hchain2, hlast2, hlen2, hsvis, hdisj⟩ := hk
            rcases List.mem_cons.mp hp with rfl | hp2
            · exfalso
              cases s with
              | nil =>
                rw [List.append_nil, hcur] at hlast2
                exact hct (Option.some.inj hlast2)
              | cons b s2 =>
                exact hdisj (by simp) current hcur hv
            · exact ⟨p, hp2, s, hchain2, hlast2, hlen2, hsvis, hdisj⟩
        · rw [bfAux_cons_new nbrs target current path rest visited hcur hct hv]
          refine ih _ _ ?_ ?_ ?_ ?_ ?_
          · simp only [List.length_append, List.length_map, List.length_cons] at hm ⊢
            have hcard : visited.card < n := by
              have h1 : visited.card ≤ n := by
                simpa using Finset.card_le_univ visited
              rcases Nat.lt_or_ge visited.card n with h | h
              · exact h
              · exfalso
                have h2 : visited = Finset.univ := by
                  apply Finset.eq_univ_of_card
                  rw [Fintype.card_fin]
                  exact le_antisymm h1 h
                exact hv (h2 ▸ Finset.mem_univ current)
            have hdeg : (nbrs current).length ≤ maxDeg nbrs := by
              have h := @Finset.le_sup Nat (Fin n) _ _ Finset.univ
                (fun t => (nbrs t).length) current (Finset.mem_univ current)
              simpa [maxDeg] using h
            have hins : (insert current visited).card = visited.card + 1 :=
              Finset.card_insert_of_not_mem hv
            rw [hins]
            have hsub : n - visited.card = (n - (visited.card + 1)) + 1 := by omega
            rw [hsub] at hm
            have hmul : ((n - (visited.card + 1)) + 1) * (maxDeg nbrs + 1)
                = (n - (visited.card + 1)) * (maxDeg nbrs + 1)
                  + (maxDeg nbrs + 1) := by
              ring
            omega
          · intro r hr
            rcases List.mem_append.mp hr with hr | hr
            · exact hq r (List.mem_cons_of_mem _ hr)
            · obtain ⟨nb, hnb, rfl⟩ := List.mem_map.mp hr
              constructor
              · rw [List.head?_append, hhead]
                rfl
              · refine List.chain'_append.mpr ⟨hchain, List.chain'_singleton nb, ?_⟩
                intro x hx y hy
                simp only [hcur, Option.mem_def, Option.some.injEq] at hx
                simp only [List.head?_cons, Option.mem_def, Option.some.injEq] at hy
                subst hx
                subst hy
                exact hnb
          · rw [List.map_append]
            refine List.pairwise_append.mpr ⟨hsortrest, ?_, ?_⟩
            · rw [List.map_map]
              exact sorted_map_const (path.length + 1) (nbrs current) _
                (fun a ha => by simp)
            · intro x hx y hy
              obtain ⟨r, hr, rfl⟩ := List.mem_map.mp hx
              rw [List.map_map] at hy
              obtain ⟨nb, hnb, rfl⟩ := List.mem_map.mp hy
              simp only [Function.comp_apply, List.length_append, List.length_cons,
                List.length_nil]
              have := hpair r (List.mem_cons_of_mem _ hr) path (List.mem_cons_self _ _)
              omega
          · intro r hr r2 hr2
            rcases List.mem_append.mp hr with hr | hr
            · rcases List.mem_append.mp hr2 with hr2 | hr2
              · exact hpair r (List.mem_cons_of_mem _ hr) r2 (List.mem_cons_of_mem _ hr2)
              · obtain ⟨nb, hnb, rfl⟩ := List.mem_map.mp hr2
                have := hpair r (List.mem_cons_of_mem _ hr) path (List.mem_cons_self _ _)
                simp only [List.length_append, List.length_cons, List.length_nil]
                omega
            · obtain ⟨nb, hnb, rfl⟩ := List.mem_map.mp hr
              rcases List.mem_append.mp hr2 with hr2 | hr2
              · have := hmin r2 (List.mem_cons_of_mem _ hr2)
                simp only [List.length_append, List.length_cons, List.length_nil]
                omega
              · obtain ⟨nb2, hnb2, rfl⟩ := List.mem_map.mp hr2
                simp [List.length_append]
          · obtain ⟨p, hp, s, hchain2, hlast2, hlen2, hsvis, hdisj⟩ := hk
            by_cases hB : p.getLast? = some current ∨ current ∈ s
            · -- the comparison walk passes through the newly visited tile:
              -- re-anchor the witness on the dequeued path plus one step
              have hcmem : current ∈ p ++ s := by
                rcases hB with h | h
                · obtain ⟨ys, hys⟩ := List.getLast?_eq_some_iff.mp h
                  apply List.mem_append_left
                  rw [hys]
                  simp
                · exact List.mem_append_right _ h
              obtain ⟨pre, suf, hsplit, hnsuf⟩ :=
                exists_last_occurrence current (p ++ s) hcmem
              have hsufs : suf <:+ s := by
                rcases hB with h | h
                · obtain ⟨p0, hp0⟩ := List.getLast?_eq_some_iff.mp h
                  apply suffix_of_split_eq current pre suf p0 s ?_ hnsuf
                  rw [← hsplit, hp0]
                  simp
                · obtain ⟨u, v, huv⟩ := List.append_of_mem h
                  have hvs : v <:+ s := by
                    rw [huv]
                    exact (List.suffix_cons current v).trans
                      (List.suffix_append u (current :: v))
                  refine (suffix_of_split_eq current pre suf (p ++ u) v ?_ hnsuf).trans hvs
                  rw [← hsplit, huv, List.append_assoc]
              have hsufne : suf ≠ [] := by
                intro h
                subst h
                rw [hsplit, List.getLast?_concat] at hlast2
                exact hct (Option.some.inj hlast2)
              obtain ⟨nb0, s2, rfl⟩ : ∃ b t, suf = b :: t := by
                cases suf with
                | nil => exact absurd rfl hsufne
                | cons b t => exact ⟨b, t, rfl⟩
              have hchsuf : List.Chain' (Adj nbrs) (current :: nb0 :: s2) := by
                have h := hchain2
                rw [hsplit] at h
                exact (List.chain'_append.mp h).2.1
              have hadj : Adj nbrs current nb0 := (List.chain'_cons.mp hchsuf).1
              have hchtail : List.Chain' (Adj nbrs) (nb0 :: s2) :=
                (List.chain'_cons.mp hchsuf).2
              have hlastsuf : (nb0 :: s2).getLast? = some target := by
                have h := hlast2
                rw [hsplit, List.getLast?_append_of_ne_nil pre (by simp),
                  List.getLast?_cons_cons] at h
                exact h
              refine ⟨path ++ [nb0],
                List.mem_append_right _ (List.mem_map.mpr ⟨nb0, hadj, rfl⟩),
                s2, ?_, ?_, ?_, ?_, ?_⟩
              · rw [List.append_assoc]
                refine List.chain'_append.mpr ⟨hchain, ?_, ?_⟩
                · simpa using hchtail
                · intro x hx y hy
                  simp only [hcur, Option.mem_def, Option.some.injEq] at hx
                  simp only [List.singleton_append, List.head?_cons, Option.mem_def,
                    Option.some.injEq] at hy
                  subst hx
                  subst hy
                  exact hadj
              · rw [List.append_assoc, List.getLast?_append_of_ne_nil path (by simp)]
                simpa using hlastsuf
              · have h1 : path.length ≤ p.length := hmin p hp
                have h2 : (nb0 :: s2).length ≤ s.length := hsufs.length_le
                simp only [List.length_append, List.length_cons, List.length_nil] at h2 ⊢
                omega
              · intro x hx
                rw [Finset.mem_insert]
                push_neg
                constructor
                · intro h
                  subst h
                  exact hnsuf (List.mem_cons_of_mem _ hx)
                · exact hsvis x (hsufs.subset (List.mem_cons_of_mem _ hx))
              · intro _ c hc
                rw [List.getLast?_concat] at hc
                obtain rfl := Option.some.inj hc
                rw [Finset.mem_insert]
                push_neg
                constructor
                · intro h
                  exact hnsuf (h ▸ List.mem_cons_self nb0 s2)
                · exact hsvis nb0 (hsufs.subset (List.mem_cons_self nb0 s2))
            · push_neg at hB
              obtain ⟨hBl, hBr⟩ := hB
              have hprest : p ∈ rest := by
                rcases List.mem_cons.mp hp with h | h
                · exfalso
                  subst h
                  exact hBl hcur
                · exact h
              refine ⟨p, List.mem_append_left _ hprest, s, hchain2, hlast2, hlen2, ?_, ?_⟩
              · intro x hx
                rw [Finset.mem_insert]
                push_neg
                exact ⟨fun h => hBr (h ▸ hx), hsvis x hx⟩
              · intro hsne c hc
                rw [Finset.mem_insert]
                push_neg
                refine ⟨?_, hdisj hsne c hc⟩
                intro h
                exact hBl (h ▸ hc)

/-- C1: for every start tile `A` and target tile `B` with `B` reachable
from `A` in the adjacency graph given by `get_neighbors`, BFS returns a
path that is a valid walk from `A` to `B` of minimal length, i.e. whose
hop count (length minus one) is the shortest-hop distance from `A` to `B`. -/
theorem bf_pathfinding_shortest {n : Nat} (nbrs : Fin n → List (Fin n))
    (A B : Fin n) (h : Reachable nbrs A B) :
    ∃ p, bf_pathfinding nbrs A B = some p ∧ IsPath nbrs A B p ∧
      ∀ q, IsPath nbrs A B q → p.length ≤ q.length := by
  obtain ⟨q0, hq0⟩ := h
  have hrun : ∀ q, IsPath nbrs A B q →
      ∃ res, bfAux nbrs B [[A]] ∅ = some res ∧ res.length ≤ q.length := by
    intro q hq
    refine bfAux_complete nbrs A B q
      ((n - (∅ : Finset (Fin n)).card) * (maxDeg nbrs + 1) + 1) [[A]] ∅
      (le_refl _) ?_ ?_ ?_ ?_
    · intro r hr
      simp only [List.mem_singleton] at hr
      subst hr
      exact ⟨rfl, List.chain'_singleton A⟩
    · simp
    · intro r hr r2 hr2
      simp only [List.mem_singleton] at hr hr2
      subst hr
      subst hr2
      omega
    · obtain ⟨hh, hl, hc⟩ := hq
      obtain ⟨t, rfl⟩ : ∃ t, q = A :: t := by
        cases q with
        | nil => exact absurd hh (by simp)
        | cons a t =>
          simp only [List.head?_cons, Option.some.injEq] at hh
          exact ⟨t, by rw [hh]⟩
      refine ⟨[A], List.mem_singleton_self [A], t, ?_, ?_, ?_, ?_, ?_⟩
      · simpa using hc
      · simpa using hl
      · simp only [List.length_cons, List.length_nil]
        omega
      · simp
      · intro _ c hc2
        simp
  obtain ⟨res, hres, hlen⟩ := hrun q0 hq0
  refine ⟨res, hres, bf_pathfinding_sound nbrs A B res hres, ?_⟩
  intro q hq
  obtain ⟨res2, hres2, hlen2⟩ := hrun q hq
  rw [hres] at hres2
  obtain rfl := Option.some.inj hres2
  exact hlen2

/-- C9: for every tile `A` and every adjacency oracle, `bf_pathfinding A A`
immediately returns the single-element path `[A]` (the target test fires on
the very first dequeue, before any neighbour expansion). -/
theorem bf_pathfinding_self {n : Nat} (nbrs : Fin n → List (Fin n))
    (A : Fin n) : bf_pathfinding nbrs A A = some [A] := by
  rw [bf_pathfinding]
  exact bfAux_cons_target nbrs A A [A] [] ∅ rfl rfl

/-- C1 witness: on the two-tile map with the edge `0 → 1`, the hypothesis
`Reachable` holds via the walk `[0, 1]`. -/
theorem bf_pathfinding_shortest_witness :
    ∃ p, bf_pathfinding exNbrs 0 1 = some p ∧ IsPath exNbrs 0 1 p ∧
      ∀ q, IsPath exNbrs 0 1 q → p.length ≤ q.length :=
  bf_pathfinding_shortest exNbrs 0 1
    ⟨[0, 1], by simp [IsPath, Adj, exNbrs, List.chain'_cons]⟩

/-- Concrete run of the search on the two-tile example map. -/
theorem bf_ex_eval : bf_pathfinding exNbrs 0 1 = some [0, 1] := by
  have h1 : (([] : List (List (Fin 2))) ++ (exNbrs 0).map fun nb => [0] ++ [nb])
      = [[0, 1]] := by decide
  rw [bf_pathfinding,
    bfAux_cons_new exNbrs 1 0 [0] [] ∅ rfl (by decide) (by simp), h1,
    bfAux_cons_target exNbrs 1 1 [0, 1] [] (insert 0 ∅) rfl rfl]

/-- C7: each consecutive pair of tiles in any path returned by
`bf_pathfinding` (any start, target, adjacency oracle) satisfies the
adjacency relation: `p[i+1]` is among `get_neighbors(p[i])`. -/
theorem bf_pathfinding_consecutive_adjacent {n : Nat}
    (nbrs : Fin n → List (Fin n)) (A B : Fin n) (p : List (Fin n))
    (h : bf_pathfinding nbrs A B = some p) :
    ∀ (i : Nat) (hi : i < p.length - 1),
      p.get ⟨i + 1, by omega⟩ ∈ nbrs (p.get ⟨i, by omega⟩) := by
  obtain ⟨-, -, hchain⟩ := bf_pathfinding_sound nbrs A B p h
  exact List.chain'_iff_get.mp hchain

/-- C7 witness: the pair at index 0 of the path `[0, 1]` returned on the
example map is an adjacency pair. -/
theorem bf_pathfinding_consecutive_adjacent_witness :
    ([0, 1] : List (Fin 2)).get ⟨1, by decide⟩
      ∈ exNbrs (([0, 1] : List (Fin 2)).get ⟨0, by decide⟩) :=
  bf_pathfinding_consecutive_adjacent exNbrs 0 1 [0, 1] bf_ex_eval 0 (by decide)

/-- C8: every tile of a freshly returned path is passable, given the
spec-modelled facts that the Grid Map's adjacency query only yields
passable tiles and that the start tile (the agent's own tile, validated by
the resolver's calling context) is passable. -/
theorem bf_pathfinding_passable {n : Nat} (nbrs : Fin n → List (Fin n))
    (is_tile_passable : Fin n → Bool) (A B : Fin n) (p : List (Fin n))
    (hnb : ∀ t t2 : Fin n, t2 ∈ nbrs t → is_tile_passable t2 = true)
    (hA : is_tile_passable A = true)
    (h : bf_pathfinding nbrs A B = some p) :
    ∀ t ∈ p, is_tile_passable t = true := by
  obtain ⟨hhead, -, hchain⟩ := bf_pathfinding_sound nbrs A B p h
  intro t ht
  rcases mem_chain'_head_or_rel p hchain t ht with hh | ⟨y, hy⟩
  · rw [hhead] at hh
    obtain rfl := Option.some.inj hh
    exact hA
  · exact hnb y t hy

/-- C8 witness: on the all-passable example map, the returned path's tile 1
is passable. -/
theorem bf_pathfinding_passable_witness : exPassable 1 = true :=
  bf_pathfinding_passable exNbrs exPassable 0 1 [0, 1]
    (fun t t2 h => rfl) rfl bf_ex_eval 1 (by decide)

/-- When the target is unreachable the frontier is exhausted and the
search returns `None`. -/
theorem bf_pathfinding_unreachable {n : Nat} (nbrs : Fin n → List (Fin n))
    (A B : Fin n) (h : ¬ Reachable nbrs A B) :
    bf_pathfinding nbrs A B = none := by
  cases heq : bf_pathfinding nbrs A B with
  | none => rfl
  | some p => exact absurd ⟨p, bf_pathfinding_sound nbrs A B p heq⟩ h

/-- C6: when the clicked target is not reachable from the player's tile,
`bf_pathfinding` returns `None` (total function: no exception), the click
handler stores that `None` as the path, and the active-path state stays
Idle (falsy). -/
theorem click_handler_unreachable_idle {n : Nat} {Pos : Type}
    (nbrs : Fin n → List (Fin n)) (is_tile_passable : Fin n → Bool)
    (tile : Pos → Fin n) (event : ClickEvent Pos) (data : GameData n Pos)
    (hb : event.button_is_left = true) (ha : event.action_is_pressed = true)
    (hp : is_tile_passable (tile event.pos) = true)
    (hidle : pathTruthy data.path = false)
    (hun : ¬ Reachable nbrs (tile data.player) (tile event.pos)) :
    bf_pathfinding nbrs (tile data.player) (tile event.pos) = none ∧
      (click_handler nbrs is_tile_passable tile event data).path = none ∧
      pathTruthy (click_handler nbrs is_tile_passable tile event data).path
        = false := by
  have hnone := bf_pathfinding_unreachable nbrs _ _ hun
  have hpath : (click_handler nbrs is_tile_passable tile event data).path = none := by
    simp [click_handler, hb, ha, hp, hidle, hnone]
  refine ⟨hnone, hpath, ?_⟩
  rw [hpath]
  rfl

/-- On the edgeless two-tile map, tile 1 is not reachable from tile 0. -/
theorem exNbrsNone_not_reachable : ¬ Reachable exNbrsNone 0 1 := by
  rintro ⟨p, hh, hl, hc⟩
  obtain ⟨t, rfl⟩ : ∃ t, p = 0 :: t := by
    cases p with
    | nil => exact absurd hh (by simp)
    | cons a t =>
      simp only [List.head?_cons, Option.some.injEq] at hh
      exact ⟨t, by rw [hh]⟩
  cases t with
  | nil => exact absurd hl (by decide)
  | cons b t2 =>
    have hadj := (List.chain'_cons.mp hc).1
    simp [Adj, exNbrsNone] at hadj

/-- C6 witness: a left-press on passable tile 1 while Idle, on the
edgeless map, installs no path. -/
theorem click_handler_unreachable_idle_witness :
    bf_pathfinding exNbrsNone 0 1 = none ∧
      (click_handler exNbrsNone exPassable (fun p : Fin 2 => p)
        ⟨true, true, 1⟩ ⟨none, 0⟩).path = none ∧
      pathTruthy ((click_handler exNbrsNone exPassable (fun p : Fin 2 => p)
        ⟨true, true, 1⟩ ⟨none, 0⟩).path) = false :=
  click_handler_unreachable_idle exNbrsNone exPassable (fun p => p)
    ⟨true, true, 1⟩ ⟨none, 0⟩ rfl rfl rfl rfl exNbrsNone_not_reachable

/-- C2 counterexample: on the example map, a click on tile 1 while the
player stands on tile 0 installs the path `[0, 1]`, whose head `0` IS the
agent's current tile — refuting the claim that the freshly installed path
never contains the agent's current tile as its head. -/
theorem click_handler_installs_head_current_tile :
    (click_handler exNbrs exPassable (fun p : Fin 2 => p)
        ⟨true, true, 1⟩ ⟨none, 0⟩).path = some [0, 1] ∧
      (fun p : Fin 2 => p) (GameData.player (⟨none, 0⟩ : GameData 2 (Fin 2)))
        = 0 ∧
      ([0, 1] : List (Fin 2)).head? = some 0 := by
  refine ⟨?_, rfl, rfl⟩
  simp [click_handler, pathTruthy, exPassable, bf_ex_eval]

/-- C2 (amended): the freshly installed path runs from the agent's current
tile (inclusive — it is the head) to the target tile (inclusive). -/
theorem click_handler_installs_path_from_current_tile {n : Nat} {Pos : Type}
    (nbrs : Fin n → List (Fin n)) (is_tile_passable : Fin n → Bool)
    (tile : Pos → Fin n) (event : ClickEvent Pos) (data : GameData n Pos)
    (hb : event.button_is_left = true) (ha : event.action_is_pressed = true)
    (hp : is_tile_passable (tile event.pos) = true)
    (hidle : pathTruthy data.path = false)
    (p : List (Fin n))
    (hbf : bf_pathfinding nbrs (tile data.player) (tile event.pos) = some p) :
    (click_handler nbrs is_tile_passable tile event data).path = some p ∧
      p.head? = some (tile data.player) ∧
      p.getLast? = some (tile event.pos) := by
  obtain ⟨hh, hl, -⟩ := bf_pathfinding_sound nbrs _ _ p hbf
  refine ⟨?_, hh, hl⟩
  simp [click_handler, hb, ha, hp, hidle, hbf]

/-- C2 (amended) witness. -/
theorem click_handler_installs_path_witness :
    (click_handler exNbrs exPassable (fun p : Fin 2 => p)
        ⟨true, true, 1⟩ ⟨none, 0⟩).path = some [0, 1] ∧
      ([0, 1] : List (Fin 2)).head? = some 0 ∧
      ([0, 1] : List (Fin 2)).getLast? = some 1 :=
  click_handler_installs_path_from_current_tile exNbrs exPassable
    (fun p => p) ⟨true, true, 1⟩ ⟨none, 0⟩ rfl rfl rfl rfl [0, 1] bf_ex_eval

theorem chain'_drop {α : Type*} {R : α → α → Prop} {l : List α}
    (h : List.Chain' R l) : ∀ k, List.Chain' R (l.drop k) := by
  intro k
  induction k with
  | zero => simpa using h
  | succ k ih =>
    rw [← List.tail_drop]
    exact ih.tail

theorem getLast?_drop_of_lt {α : Type*} {l : List α} {a : α} {k : Nat}
    (hl : l.getLast? = some a) (hk : k < l.length) :
    (l.drop k).getLast? = some a := by
  have hne : l.drop k ≠ [] := by
    intro h
    rw [List.drop_eq_nil_iff] at h
    omega
  rw [← List.take_append_drop k l, List.getLast?_append_of_ne_nil _ hne] at hl
  exact hl

/-- Iterating the tick update along a fully passable stored path: after
`k + 1` ticks the player stands at the world coordinate of the path's
`k`-th tile and the stored path is what remains beyond it. -/
theorem update_iterate_drop {n : Nat} {Pos : Type}
    (is_tile_passable : Fin n → Bool) (world : Fin n → Pos) :
    ∀ (k : Nat) (s : GameData n Pos) (q : List (Fin n)),
      s.path = some q → (∀ t ∈ q, is_tile_passable t = true) →
      ∀ (hk : k < q.length),
        ((update is_tile_passable world)^[k + 1] s).player
            = world (q.get ⟨k, hk⟩) ∧
          ((update is_tile_passable world)^[k + 1] s).path
            = some (q.drop (k + 1)) := by
  intro k
  induction k with
  | zero =>
    intro s q hq hpass hk
    cases q with
    | nil => simp at hk
    | cons t rest =>
      have hup : update is_tile_passable world s
          = { path := some rest, player := world t } := by
        simp [update, hq, hpass t (List.mem_cons_self t rest)]
      rw [Function.iterate_one, hup]
      exact ⟨rfl, rfl⟩
  | succ k ih =>
    intro s q hq hpass hk
    cases q with
    | nil => simp at hk
    | cons t rest =>
      have hup : update is_tile_passable world s
          = { path := some rest, player := world t } := by
        simp [update, hq, hpass t (List.mem_cons_self t rest)]
      have hk2 : k < rest.length := by
        simp only [List.length_cons] at hk
        omega
      obtain ⟨h1, h2⟩ := ih (update is_tile_passable world s) rest
        (by rw [hup]) (fun t2 ht2 => hpass t2 (List.mem_cons_of_mem _ ht2)) hk2
      rw [Function.iterate_succ_apply]
      refine ⟨?_, ?_⟩
      · rw [h1, List.get_cons_succ]
      · rw [h2]
        rfl

/-- C2 (amended): whenever an active path exists it spans to the target
inclusive; immediately after the click handler installs a path its head IS
the agent's current tile (inclusive, not exclusive), and after every
subsequent tick the remaining tiles are the steps from the agent's current
position (exclusive) to the target (inclusive): after tick `k + 1` the
agent stands at `world p[k]`, the remaining path is `p.drop (k + 1)`,
which continues from the agent's current tile by adjacency and ends at
the target. -/
theorem click_handler_install_and_ticks {n : Nat} {Pos : Type}
    (nbrs : Fin n → List (Fin n)) (is_tile_passable : Fin n → Bool)
    (world : Fin n → Pos) (tile : Pos → Fin n)
    (event : ClickEvent Pos) (data : GameData n Pos)
    (hb : event.button_is_left = true) (ha : event.action_is_pressed = true)
    (hp : is_tile_passable (tile event.pos) = true)
    (hidle : pathTruthy data.path = false)
    (p : List (Fin n))
    (hbf : bf_pathfinding nbrs (tile data.player) (tile event.pos) = some p)
    (hpass : ∀ t ∈ p, is_tile_passable t = true) :
    (click_handler nbrs is_tile_passable tile event data).path = some p ∧
      p.head? = some (tile data.player) ∧
      p.getLast? = some (tile event.pos) ∧
      ∀ (k : Nat) (hk : k < p.length),
        ((update is_tile_passable world)^[k + 1]
            (click_handler nbrs is_tile_passable tile event data)).player
          = world (p.get ⟨k, hk⟩) ∧
        ((update is_tile_passable world)^[k + 1]
            (click_handler nbrs is_tile_passable tile event data)).path
          = some (p.drop (k + 1)) ∧
        List.Chain' (Adj nbrs) (p.get ⟨k, hk⟩ :: p.drop (k + 1)) ∧
        (p.get ⟨k, hk⟩ :: p.drop (k + 1)).getLast? = some (tile event.pos) := by
  obtain ⟨hinstall, hh, hl⟩ := click_handler_installs_path_from_current_tile
    nbrs is_tile_passable tile event data hb ha hp hidle p hbf
  have hchain := (bf_pathfinding_sound nbrs _ _ p hbf).2.2
  refine ⟨hinstall, hh, hl, ?_⟩
  intro k hk
  obtain ⟨h1, h2⟩ := update_iterate_drop is_tile_passable world k
    (click_handler nbrs is_tile_passable tile event data) p hinstall hpass hk
  have hcd : p.get ⟨k, hk⟩ :: p.drop (k + 1) = p.drop k :=
    List.getElem_cons_drop p k hk
  refine ⟨h1, h2, ?_, ?_⟩
  · rw [hcd]
    exact chain'_drop hchain k
  · rw [hcd]
    exact getLast?_drop_of_lt hl hk

/-- C2 (amended) witness: install on the example map, then run both ticks. -/
theorem click_handler_install_and_ticks_witness :
    (click_handler exNbrs exPassable (fun p : Fin 2 => p)
        ⟨true, true, 1⟩ ⟨none, 0⟩).path = some [0, 1] ∧
      ([0, 1] : List (Fin 2)).head? = some 0 ∧
      ([0, 1] : List (Fin 2)).getLast? = some 1 ∧
      ∀ (k : Nat) (hk : k < ([0, 1] : List (Fin 2)).length),
        ((update exPassable (fun t : Fin 2 => t))^[k + 1]
            (click_handler exNbrs exPassable (fun p : Fin 2 => p)
              ⟨true, true, 1⟩ ⟨none, 0⟩)).player
          = ([0, 1] : List (Fin 2)).get ⟨k, hk⟩ ∧
        ((update exPassable (fun t : Fin 2 => t))^[k + 1]
            (click_handler exNbrs exPassable (fun p : Fin 2 => p)
              ⟨true, true, 1⟩ ⟨none, 0⟩)).path
          = some (([0, 1] : List (Fin 2)).drop (k + 1)) ∧
        List.Chain' (Adj exNbrs)
          (([0, 1] : List (Fin 2)).get ⟨k, hk⟩
            :: ([0, 1] : List (Fin 2)).drop (k + 1)) ∧
        ((([0, 1] : List (Fin 2)).get ⟨k, hk⟩
            :: ([0, 1] : List (Fin 2)).drop (k + 1))).getLast? = some 1 :=
  click_handler_install_and_ticks exNbrs exPassable (fun t => t)
    (fun p => p) ⟨true, true, 1⟩ ⟨none, 0⟩ rfl rfl rfl rfl [0, 1]
    bf_ex_eval (fun _ _ => rfl)

/-- C4: on a tick whose active path's head tile is impassable, the whole
path is discarded (`None`, i.e. Idle) and the agent's position is left
unchanged. -/
theorem update_impassable_discards_path {n : Nat} {Pos : Type}
    (is_tile_passable : Fin n → Bool) (world : Fin n → Pos)
    (data : GameData n Pos) (t : Fin n) (rest : List (Fin n))
    (hpath : data.path = some (t :: rest))
    (himp : is_tile_passable t = false) :
    update is_tile_passable world data
        = { path := none, player := data.player } ∧
      pathTruthy (update is_tile_passable world data).path = false := by
  constructor <;> simp [update, hpath, himp, pathTruthy]

/-- C4 witness. -/
theorem update_impassable_witness :
    update exImpassable (fun t : Fin 2 => t)
        (⟨some [1], 0⟩ : GameData 2 (Fin 2))
        = { path := none, player := 0 } ∧
      pathTruthy ((update exImpassable (fun t : Fin 2 => t)
        (⟨some [1], 0⟩ : GameData 2 (Fin 2))).path) = false :=
  update_impassable_discards_path exImpassable (fun t => t)
    ⟨some [1], 0⟩ 1 [] rfl rfl

/-- C5: with active path `[t1, t2, t3]` and all three tiles passable, three
ticks put the agent at `world t1`, `world t2`, `world t3` in turn, one tile
per tick, after which the path is empty (Idle). -/
theorem update_three_ticks {n : Nat} {Pos : Type}
    (is_tile_passable : Fin n → Bool) (world : Fin n → Pos)
    (data : GameData n Pos) (t1 t2 t3 : Fin n)
    (hpath : data.path = some [t1, t2, t3])
    (h1 : is_tile_passable t1 = true) (h2 : is_tile_passable t2 = true)
    (h3 : is_tile_passable t3 = true) :
    (update is_tile_passable world data).player = world t1 ∧
      (update is_tile_passable world
        (update is_tile_passable world data)).player = world t2 ∧
      (update is_tile_passable world (update is_tile_passable world
        (update is_tile_passable world data))).player = world t3 ∧
      (update is_tile_passable world (update is_tile_passable world
        (update is_tile_passable world data))).path = some [] ∧
      pathTruthy ((update is_tile_passable world (update is_tile_passable world
        (update is_tile_passable world data))).path) = false := by
  simp [update, hpath, h1, h2, h3, pathTruthy]

/-- C5 witness. -/
theorem update_three_ticks_witness :
    (update exPassable (fun t : Fin 2 => t)
        (⟨some [0, 1, 0], 1⟩ : GameData 2 (Fin 2))).player = 0 ∧
      (update exPassable (fun t : Fin 2 => t) (update exPassable
        (fun t : Fin 2 => t)
        (⟨some [0, 1, 0], 1⟩ : GameData 2 (Fin 2)))).player = 1 ∧
      (update exPassable (fun t : Fin 2 => t) (update exPassable
        (fun t : Fin 2 => t) (update exPassable (fun t : Fin 2 => t)
        (⟨some [0, 1, 0], 1⟩ : GameData 2 (Fin 2))))).player = 0 ∧
      (update exPassable (fun t : Fin 2 => t) (update exPassable
        (fun t : Fin 2 => t) (update exPassable (fun t : Fin 2 => t)
        (⟨some [0, 1, 0], 1⟩ : GameData 2 (Fin 2))))).path = some [] ∧
      pathTruthy ((update exPassable (fun t : Fin 2 => t) (update exPassable
        (fun t : Fin 2 => t) (update exPassable (fun t : Fin 2 => t)
        (⟨some [0, 1, 0], 1⟩ : GameData 2 (Fin 2))))).path) = false :=
  update_three_ticks exPassable (fun t => t) ⟨some [0, 1, 0], 1⟩ 0 1 0
    rfl rfl rfl rfl

/-- C3 evidence: the click handler's target-tile computation passes the
raw event coordinates to the Grid Map's `tile` query, whereas the spec's
resolver first applies the camera transform (`to_world`).  With the camera
viewing `[200, 1224] × [0, 768]` at resolution `1024 × 768` and a click at
`(100, 50)`, the code looks up the tile at `(100, 50)` while the spec'd
computation looks up the tile at `(300, 50)`. -/
theorem click_target_tile_ignores_camera :
    click_target_tile (fun p : ℚ × ℚ => p) 100 50 = (100, 50) ∧
      click_target_tile_spec ⟨200, 1224, 0, 768⟩ 1024 768
        (fun p : ℚ × ℚ => p) 100 50 = (300, 50) ∧
      click_target_tile (fun p : ℚ × ℚ => p) 100 50
        ≠ click_target_tile_spec ⟨200, 1224, 0, 768⟩ 1024 768
          (fun p : ℚ × ℚ => p) 100 50 := by
  refine ⟨rfl, ?_, ?_⟩
  · simp only [click_target_tile_spec, to_world]
    norm_num
  · simp only [click_target_tile, click_target_tile_spec, to_world]
    intro h
    rw [Prod.mk.injEq] at h
    have hx := h.1
    norm_num at hx

/-- The fuel-indexed loop finishes (returns `some`) within the measure
bound, agreeing with the loop's value. -/
theorem bfFuel_completes {n : Nat} (nbrs : Fin n → List (Fin n))
    (target : Fin n) :
    ∀ (N : Nat) (queue : List (List (Fin n))) (visited : Finset (Fin n)),
      (n - visited.card) * (maxDeg nbrs + 1) + queue.length ≤ N →
      ∃ fuel, bfFuel nbrs target fuel queue visited
          = some (bfAux nbrs target queue visited) := by
  intro N
  induction N with
  | zero =>
    intro queue visited hm
    cases queue with
    | nil => exact ⟨1, by rw [bfAux_nil]; rfl⟩
    | cons path rest =>
      simp only [List.length_cons] at hm
      omega
  | succ N ih =>
    intro queue visited hm
    cases queue with
    | nil => exact ⟨1, by rw [bfAux_nil]; rfl⟩
    | cons path rest =>
      cases hcur : path.getLast? with
      | none =>
        refine ⟨1, ?_⟩
        rw [bfAux_cons_nolast nbrs target path rest visited hcur]
        simp [bfFuel, hcur]
      | some current =>
        by_cases hct : current = target
        · refine ⟨1, ?_⟩
          rw [bfAux_cons_target nbrs target current path rest visited hcur hct]
          simp [bfFuel, hcur, hct]
        · by_cases hv : current ∈ visited
          · obtain ⟨fuel, hf⟩ := ih rest visited
              (by simp only [List.length_cons] at hm; omega)
            refine ⟨fuel + 1, ?_⟩
            rw [bfAux_cons_visited nbrs target current path rest visited hcur hct hv]
            simpa [bfFuel, hcur, hct, hv] using hf
          · have hmeas : (n - (insert current visited).card) * (maxDeg nbrs + 1)
                + (rest ++ (nbrs current).map fun neighbour =>
                    path ++ [neighbour]).length ≤ N := by
              simp only [List.length_append, List.length_map, List.length_cons] at hm ⊢
              have hcard : visited.card < n := by
                have h1 : visited.card ≤ n := by
                  simpa using Finset.card_le_univ visited
                rcases Nat.lt_or_ge visited.card n with h | h
                · exact h
                · exfalso
                  have h2 : visited = Finset.univ := by
                    apply Finset.eq_univ_of_card
                    rw [Fintype.card_fin]
                    exact le_antisymm h1 h
                  exact hv (h2 ▸ Finset.mem_univ current)
              have hdeg : (nbrs current).length ≤ maxDeg nbrs := by
                have h := @Finset.le_sup Nat (Fin n) _ _ Finset.univ
                  (fun t => (nbrs t).length) current (Finset.mem_univ current)
                simpa [maxDeg] using h
              have hins : (insert current visited).card = visited.card + 1 :=
                Finset.card_insert_of_not_mem hv
              rw [hins]
              have hsub : n - visited.card = (n - (visited.card + 1)) + 1 := by
                omega
              rw [hsub] at hm
              have hmul : ((n - (visited.card + 1)) + 1) * (maxDeg nbrs + 1)
                  = (n - (visited.card + 1)) * (maxDeg nbrs + 1)
                    + (maxDeg nbrs + 1) := by
                ring
              omega
            obtain ⟨fuel, hf⟩ := ih
              (rest ++ (nbrs current).map fun neighbour => path ++ [neighbour])
              (insert current visited) hmeas
            refine ⟨fuel + 1, ?_⟩
            rw [bfAux_cons_new nbrs target current path rest visited hcur hct hv]
            simpa [bfFuel, hcur, hct, hv] using hf

/-- C10: on every bounded adjacency graph (`Fin n` tiles) the search loop
terminates for every start/target pair — a finite iteration budget
suffices for the fuel-indexed loop to finish with `bf_pathfinding`'s
value, despite already-visited tiles being enqueued and only filtered at
dequeue time. -/
theorem bf_pathfinding_terminates {n : Nat} (nbrs : Fin n → List (Fin n))
    (A B : Fin n) :
    ∃ fuel, bfFuel nbrs B fuel [[A]] ∅ = some (bf_pathfinding nbrs A B) :=
  bfFuel_completes nbrs B
    ((n - (∅ : Finset (Fin n)).card) * (maxDeg nbrs + 1) + 1) [[A]] ∅
    (le_refl _)

end MazeGame
